import Mathlib

/-!
Verification of the CRY2–TRPC1 stochastic-resonance simulation core
(`src/cry2_trpc1_simulation.tsx`).

The numerical core of the component — the Euler–Maruyama integrator, the
switching detector, the histogram reduction, the direct power spectrum and
the SNR metric — is embedded below as functions over the reals.  The random
source (`randomGaussian`) is abstracted as an injected noise sequence
`noise : ℕ → ℝ` supplying the standard-normal draw `R` of each step, which
is exactly the stubbed-`RandomSource` view the specification reasons about.
String formatting of the metrics (`toFixed` / `toExponential`) is
presentation-layer and the metrics are kept as the numbers they format.
-/

namespace CRY2TRPC1

/-- Simulation parameters, mirroring the `params` record of the component
(`T`, `B_field`, `F_mag`, `dt`, `t_end`). -/
structure Params where
  T : ℝ
  B_field : ℝ
  F_mag : ℝ
  dt : ℝ
  t_end : ℝ

/-- Boltzmann constant (source: `const k_B = 1.380649e-23`). -/
noncomputable def k_B : ℝ := 1.380649e-23

/-- Characteristic length (source: `const x_0 = 1.0e-9`). -/
noncomputable def x_0 : ℝ := 1.0e-9

/-- Friction coefficient (source: `const gamma = 1e-7`). -/
noncomputable def gamma : ℝ := 1e-7

/-- Thermal energy (source: `const k_B_T = k_B * params.T`). -/
noncomputable def k_B_T (p : Params) : ℝ := k_B * p.T

/-- Barrier height (source: `const delta_U = 6 * k_B_T`). -/
noncomputable def delta_U (p : Params) : ℝ := 6 * k_B_T p

/-- Quadratic force coefficient (source: `const a = 24 * k_B_T / (x_0 * x_0)`). -/
noncomputable def aCoef (p : Params) : ℝ := 24 * k_B_T p / (x_0 * x_0)

/-- Cubic force coefficient (source: `const b = a / (x_0 * x_0)`). -/
noncomputable def bCoef (p : Params) : ℝ := aCoef p / (x_0 * x_0)

/-- Step count (source: `const n_steps = Math.floor(params.t_end / params.dt)`;
the `for` loop then runs `max 0 n_steps` times, hence `Int.toNat`). -/
noncomputable def n_steps (p : Params) : ℕ := (⌊p.t_end / p.dt⌋).toNat

/-- Downsampling stride
(source: `const downsample = Math.max(1, Math.floor(n_steps / 5000))`). -/
noncomputable def downsample (p : Params) : ℕ := max 1 (n_steps p / 5000)

/-- JS `Math.sign` on the reals. -/
noncomputable def sign (x : ℝ) : ℝ := if 0 < x then 1 else if x < 0 then -1 else 0

/-- Source: `const Phi_baseline = 0.25`. -/
noncomputable def Phi_baseline : ℝ := 0.25

/-- Source: `const Phi_S = Phi_baseline + 0.05 * Math.sin(2 * Math.PI * 100 * 0)`. -/
noncomputable def Phi_S : ℝ :=
  Phi_baseline + 0.05 * Real.sin (2 * Real.pi * 100 * 0)

/-- Source: `const F_coupling = params.F_mag * (Phi_S - Phi_baseline)`. -/
noncomputable def F_coupling (p : Params) : ℝ := p.F_mag * (Phi_S - Phi_baseline)

/-- Deterministic force at position `x`
(source: `const F_det = a * x - b * x * x * x + F_coupling`). -/
noncomputable def F_det (p : Params) (x : ℝ) : ℝ :=
  aCoef p * x - bCoef p * x * x * x + F_coupling p

/-- Thermal noise term for draw `R`
(source: `const noise_term = Math.sqrt(2 * k_B_T * params.dt / gamma) * R`). -/
noncomputable def noiseTerm (p : Params) (R : ℝ) : ℝ :=
  Real.sqrt (2 * k_B_T p * p.dt / gamma) * R

/-- Position update of one Euler–Maruyama step
(source: `x = x + (params.dt / gamma) * F_det + noise_term`). -/
noncomputable def stepX (p : Params) (R x : ℝ) : ℝ :=
  x + (p.dt / gamma) * F_det p x + noiseTerm p R

/-- Mutable state of the main loop: current position, the downsampled
trajectory and time stamps pushed so far, the switch counter and the last
sign retained by the hysteresis detector. -/
structure LoopState where
  x : ℝ
  trajectory : List ℝ
  times : List ℝ
  switchCount : ℕ
  lastSign : ℝ

/-- One iteration of the main loop at index `i` with noise draw `R`:
position update, switch detection
(`if (currentSign !== lastSign && Math.abs(x) > 0.1 * x_0)`), and
downsampled storage (`if (i % downsample === 0)`). -/
noncomputable def stepState (p : Params) (d i : ℕ) (R : ℝ) (s : LoopState) :
    LoopState :=
  { x := stepX p R s.x
    trajectory :=
      if i % d = 0 then s.trajectory ++ [stepX p R s.x / x_0] else s.trajectory
    times :=
      if i % d = 0 then s.times ++ [(i : ℝ) * p.dt * 1e6] else s.times
    switchCount :=
      if sign (stepX p R s.x) ≠ s.lastSign ∧ 0.1 * x_0 < |stepX p R s.x| then
        s.switchCount + 1
      else s.switchCount
    lastSign :=
      if sign (stepX p R s.x) ≠ s.lastSign ∧ 0.1 * x_0 < |stepX p R s.x| then
        sign (stepX p R s.x)
      else s.lastSign }

/-- Loop entry state (source: `let x = -x_0; ... let switchCount = 0;
let lastSign = Math.sign(x)`). -/
noncomputable def initState : LoopState :=
  { x := -x_0, trajectory := [], times := [], switchCount := 0,
    lastSign := sign (-x_0) }

/-- State after the first `m` iterations of the main loop, with stride `d`
and injected noise sequence `noise`. -/
noncomputable def runLoop (p : Params) (noise : ℕ → ℝ) (d : ℕ) : ℕ → LoopState
  | 0 => initState
  | i + 1 => stepState p d i (noise i) (runLoop p noise d i)

/-- State at loop exit: the full `n_steps` iterations with the stride of the run. -/
noncomputable def finalState (p : Params) (noise : ℕ → ℝ) : LoopState :=
  runLoop p noise (downsample p) (n_steps p)

/-- Source: `const hist_bins = 50`. -/
def hist_bins : ℕ := 50

/-- Source: `const x_min = -2`. -/
noncomputable def x_min : ℝ := -2

/-- Source: `const x_max = 2`. -/
noncomputable def x_max : ℝ := 2

/-- Source: `const bin_width = (x_max - x_min) / hist_bins`. -/
noncomputable def bin_width : ℝ := (x_max - x_min) / hist_bins

/-- Bin index of one sample
(source: `const bin = Math.floor((val - x_min) / bin_width)`). -/
noncomputable def binIndex (v : ℝ) : ℤ := ⌊(v - x_min) / bin_width⌋

/-- One `forEach` body of the histogram fill: increment the bin of `val`
when its index lies in `[0, hist_bins)`, else leave the counts unchanged. -/
noncomputable def histAccum (h : ℕ → ℕ) (val : ℝ) : ℕ → ℕ :=
  if 0 ≤ binIndex val ∧ binIndex val < (hist_bins : ℤ) then
    fun j => if (j : ℤ) = binIndex val then h j + 1 else h j
  else h

/-- Bin counts after filling from the whole trajectory
(source: `trajectory.forEach(val => { ... histogram[bin]++; })`). -/
noncomputable def histogramCounts (traj : List ℝ) : ℕ → ℕ :=
  traj.foldl histAccum fun _ => 0

/-- Number of samples whose bin index lies in `[0, hist_bins)` — the samples
actually binned (the rest are silently dropped). -/
noncomputable def binnedCount (traj : List ℝ) : ℕ :=
  (traj.filter fun v =>
    decide (0 ≤ binIndex v ∧ binIndex v < (hist_bins : ℤ))).length

/-- Direct power spectrum (source: `computeSimplePowerSpectrum`).  The JS
loop head `for (let k = 0; k < N / 2; k++)` compares the natural `k`
against the real quotient `N / 2`, so the indices run over the naturals
with `(k : ℝ) < N / 2`, i.e. `k < (N + 1) / 2` in natural division
(see `range_spectrum_faithful`); `Math.log10` is `Real.logb 10` and
`spectrum.slice(0, 100)` is `List.take 100`. -/
noncomputable def computeSimplePowerSpectrum (data : List ℝ) : List (ℝ × ℝ) :=
  ((List.range ((data.length + 1) / 2)).map fun (k : ℕ) =>
    (((k : ℝ) * 10),
      Real.logb 10
        (((∑ n ∈ Finset.range data.length,
              data.getD n 0 *
                Real.cos (2 * Real.pi * k * n / data.length)) *
            (∑ n ∈ Finset.range data.length,
              data.getD n 0 *
                Real.cos (2 * Real.pi * k * n / data.length)) +
          (-∑ n ∈ Finset.range data.length,
              data.getD n 0 *
                Real.sin (2 * Real.pi * k * n / data.length)) *
            (-∑ n ∈ Finset.range data.length,
              data.getD n 0 *
                Real.sin (2 * Real.pi * k * n / data.length))) /
          ((data.length : ℝ) * data.length) +
        1e-10))).take 100

/-- SNR metric (source: `calculateSNR`): `0` on the empty spectrum, else the
spread-out `Math.max` of the `power` fields minus their arithmetic mean. -/
noncomputable def calculateSNR (spectrum : List (ℝ × ℝ)) : ℝ :=
  match spectrum with
  | [] => 0
  | s :: rest =>
    (rest.map Prod.snd).foldl max s.2 -
      ((s :: rest).map Prod.snd).sum / ((s :: rest).length : ℝ)

/-- The numeric content of the `metrics` record assembled by `setResults`
(the source formats these numbers to strings for display). -/
structure Metrics where
  mean : ℝ
  std : ℝ
  switches : ℕ
  rate : ℝ
  barrier : ℝ
  snr : ℝ

/-- The value passed to `setResults`: chart data (times zipped with the
downsampled trajectory, capped at 2000), histogram rows, spectrum, metrics. -/
structure SimResult where
  chartData : List (ℝ × ℝ)
  histData : List (ℝ × ℝ)
  spectrum : List (ℝ × ℝ)
  metrics : Metrics

/-- The whole simulation body (`runSimulation`): run the loop, reduce the
trajectory to moments / histogram / chart rows / spectrum and assemble the
result record. -/
noncomputable def runSimulation (p : Params) (noise : ℕ → ℝ) : SimResult :=
  let s := finalState p noise
  let mean_x := s.trajectory.sum / (s.trajectory.length : ℝ)
  let variance :=
    (s.trajectory.map fun v => (v - mean_x) ^ 2).sum / (s.trajectory.length : ℝ)
  let spectrum :=
    computeSimplePowerSpectrum (s.trajectory.take (min 1024 s.trajectory.length))
  { chartData := (s.times.zip s.trajectory).take 2000
    histData :=
      (List.range hist_bins).map fun (i : ℕ) =>
        (x_min + ((i : ℝ) + 0.5) * bin_width,
          (histogramCounts s.trajectory i : ℝ) /
            (s.trajectory.length : ℝ) / bin_width)
    spectrum := spectrum
    metrics :=
      { mean := mean_x
        std := Real.sqrt variance
        switches := s.switchCount
        rate := (s.switchCount : ℝ) / p.t_end
        barrier := delta_U p / k_B_T p
        snr := calculateSNR spectrum } }

/-- Validity of the parameters in the sense of the specification:
positive temperature, positive step, positive duration, and a positive
step count. -/
noncomputable def ValidParams (p : Params) : Prop :=
  0 < p.T ∧ 0 < p.dt ∧ 0 < p.t_end ∧ 0 < n_steps p

/-- The per-step position recurrence exactly as the specification words it
(claim-side definition, to be compared with the source-side `runLoop`):
start at `-x_0`; update
`x ← x + (dt/γ)·(a·x − b·x³ + F_coupling) + sqrt(2·k_B·T·dt/γ)·R` with
`a = 24·k_B·T/x_0²` and `b = a/x_0²`. -/
noncomputable def xSpec (p : Params) (noise : ℕ → ℝ) : ℕ → ℝ
  | 0 => -x_0
  | i + 1 =>
    xSpec p noise i +
      (p.dt / gamma) *
        (24 * k_B * p.T / x_0 ^ 2 * xSpec p noise i -
          24 * k_B * p.T / x_0 ^ 2 / x_0 ^ 2 * xSpec p noise i ^ 3 +
          F_coupling p) +
      Real.sqrt (2 * k_B * p.T * p.dt / gamma) * noise i

/-- A concrete valid parameter set used to instantiate the theorems
(`dt = 1`, `t_end = 2`, hence two integration steps). -/
noncomputable def pW : Params := ⟨310, 50e-6, 2.0e-12, 1, 2⟩

/-- Variant of `pW` with a different magnetic field and coupling amplitude, all
remaining parameters identical. -/
noncomputable def qW : Params := ⟨310, 0, 7.0e-12, 1, 2⟩

/-- Concrete parameter set with `t_end = 0` (the invalid-parameter probe). -/
noncomputable def pZero : Params := ⟨310, 50e-6, 2.0e-12, 1e-10, 0⟩

/-- Parameter set tuned so the thermal noise coefficient is exactly `1`:
`T = 5·10²¹/1380649` gives `k_B·T = 5·10⁻⁸` and so
`2·k_B·T·dt/γ = 1` at `dt = 1`. -/
noncomputable def pHyst : Params := ⟨5e21 / 1380649, 50e-6, 2.0e-12, 1, 2⟩

/-- The all-zero injected noise sequence. -/
noncomputable def noiseW : ℕ → ℝ := fun _ => 0

/-- Noise sequence whose first draw kicks the particle from `-x_0` exactly
to the barrier top `0` under `pHyst`, and which is zero afterwards. -/
noncomputable def noiseHyst : ℕ → ℝ := fun i => if i = 0 then 1e-9 else 0

/-! ### Basic lemmas about the embedded constants and the step -/

lemma k_B_pos : (0 : ℝ) < k_B := by norm_num [k_B]

lemma F_coupling_eq_zero (p : Params) : F_coupling p = 0 := by
  simp [F_coupling, Phi_S, mul_zero, Real.sin_zero]

lemma runLoop_x_succ (p : Params) (noise : ℕ → ℝ) (d i : ℕ) :
    (runLoop p noise d (i + 1)).x = stepX p (noise i) (runLoop p noise d i).x :=
  rfl

/-- The JS loop head `for (let k = 0; k < N / 2; k++)` compares a natural
against the real quotient; the executed indices are exactly
`k < (N + 1) / 2` in natural division. -/
lemma range_spectrum_faithful (N k : ℕ) :
    k < (N + 1) / 2 ↔ (k : ℝ) < (N : ℝ) / 2 := by
  rw [lt_div_iff (by norm_num : (0:ℝ) < 2)]
  constructor
  · intro h
    exact_mod_cast (by omega : k * 2 < N)
  · intro h
    have h2 : k * 2 < N := by exact_mod_cast h
    omega

/-- C3: the coupling term is a run-wide constant equal to zero — `Φ_S` is
evaluated at the fixed instant `t = 0`, where it equals `Φ_baseline`, so
`F_coupling = F_mag · 0 = 0` and the deterministic force of every step reduces
to `a·x − b·x³`. -/
theorem C3_coupling_constant_zero (p : Params) (R x : ℝ) :
    Phi_S = Phi_baseline ∧ F_coupling p = 0 ∧
    stepX p R x =
      x + (p.dt / gamma) * (aCoef p * x - bCoef p * x ^ 3) +
        Real.sqrt (2 * k_B_T p * p.dt / gamma) * R := by
  refine ⟨?_, F_coupling_eq_zero p, ?_⟩
  · simp [Phi_S, mul_zero, Real.sin_zero]
  · rw [stepX, F_det, noiseTerm, F_coupling_eq_zero]
    ring

/-- C7: for every positive temperature the reported barrier ratio is
exactly `6`, independent of every other parameter and of the noise:
it is `delta_U / k_B_T` with `delta_U = 6 · k_B_T`. -/
theorem C7_barrier_invariant (p : Params) (noise : ℕ → ℝ) (hT : 0 < p.T) :
    (runSimulation p noise).metrics.barrier = 6 := by
  have h : k_B_T p ≠ 0 := ne_of_gt (mul_pos k_B_pos hT)
  simp only [runSimulation]
  rw [delta_U, mul_div_assoc, div_self h, mul_one]

/-- C7 witness at `T = 310`. -/
theorem C7_barrier_invariant_witness :
    (0:ℝ) < (310:ℝ) ∧ (runSimulation pW noiseW).metrics.barrier = 6 :=
  ⟨by norm_num, C7_barrier_invariant pW noiseW (by norm_num [pW])⟩

/-- C9: with the random source stubbed to an injected noise sequence, the
run is a pure function of parameters and noise — identical parameters and
pointwise-identical noise sequences give identical results. -/
theorem C9_determinism (p₁ p₂ : Params) (n₁ n₂ : ℕ → ℝ)
    (hv : ValidParams p₁) (hp : p₁ = p₂) (hn : ∀ i, n₁ i = n₂ i) :
    runSimulation p₁ n₁ = runSimulation p₂ n₂ := by
  subst hp
  rw [funext hn]

lemma n_steps_pW : n_steps pW = 2 := by
  rw [n_steps]
  norm_num [pW]
  decide

lemma ValidParams_pW : ValidParams pW :=
  ⟨by norm_num [pW], by norm_num [pW], by norm_num [pW],
    by rw [n_steps_pW]; norm_num⟩

/-- C9 witness: two invocations at `pW` with the same injected zero noise. -/
theorem C9_determinism_witness :
    runSimulation pW noiseW = runSimulation pW noiseW :=
  C9_determinism pW pW noiseW noiseW ValidParams_pW rfl fun _ => rfl

/-- C2: the integrator starts at `-x_0`, performs
`n_steps = ⌊t_end/dt⌋` iterations with `γ = 1e-7`, and its position obeys
exactly the update rule the specification states (`xSpec`). -/
theorem C2_integrator_recurrence (p : Params) (noise : ℕ → ℝ) (i : ℕ)
    (hdt : 0 < p.dt) (ht : 0 < p.t_end) :
    (n_steps p : ℤ) = ⌊p.t_end / p.dt⌋ ∧ gamma = 1e-7 ∧
    (runLoop p noise (downsample p) 0).x = -x_0 ∧
    (runLoop p noise (downsample p) i).x = xSpec p noise i := by
  refine ⟨?_, rfl, rfl, ?_⟩
  · rw [n_steps, Int.toNat_of_nonneg]
    exact Int.floor_nonneg.mpr (le_of_lt (div_pos ht hdt))
  · induction i with
    | zero => rfl
    | succ i ih =>
      have harg : 2 * k_B_T p * p.dt / gamma = 2 * k_B * p.T * p.dt / gamma := by
        rw [k_B_T]; ring
      rw [runLoop_x_succ, xSpec, ← ih, stepX, F_det, noiseTerm, harg,
        aCoef, bCoef, aCoef, k_B_T]
      ring

/-- C2 witness at `pW` with zero noise, after one step. -/
theorem C2_integrator_recurrence_witness :
    (n_steps pW : ℤ) = ⌊pW.t_end / pW.dt⌋ ∧ gamma = 1e-7 ∧
    (runLoop pW noiseW (downsample pW) 0).x = -x_0 ∧
    (runLoop pW noiseW (downsample pW) 1).x = xSpec pW noiseW 1 :=
  C2_integrator_recurrence pW noiseW 1 (by norm_num [pW]) (by norm_num [pW])

lemma foldl_max_mem (l : List ℝ) (a : ℝ) :
    l.foldl max a = a ∨ l.foldl max a ∈ l := by
  induction l generalizing a with
  | nil => exact Or.inl rfl
  | cons y t ih =>
    rw [List.foldl_cons]
    rcases ih (max a y) with h | h
    · rcases le_total a y with hy | hy
      · rw [h, max_eq_right hy]
        exact Or.inr (List.mem_cons_self y t)
      · rw [h, max_eq_left hy]
        exact Or.inl rfl
    · exact Or.inr (List.mem_cons_of_mem y h)

lemma le_foldl_max (l : List ℝ) (a : ℝ) :
    a ≤ l.foldl max a ∧ ∀ y ∈ l, y ≤ l.foldl max a := by
  induction l generalizing a with
  | nil => simp
  | cons z t ih =>
    rw [List.foldl_cons]
    have h := ih (max a z)
    refine ⟨le_trans (le_max_left a z) h.1, ?_⟩
    intro y hy
    rcases List.mem_cons.mp hy with rfl | hy
    · exact le_trans (le_max_right a y) h.1
    · exact h.2 y hy

/-- C8: the SNR is the maximum `log10_power` entry minus the arithmetic
mean of the entries (`calculateSNR + mean` is a member of the power list
and an upper bound of it), and the empty spectrum yields `0`. -/
theorem C8_snr (spectrum : List (ℝ × ℝ)) :
    (spectrum = [] → calculateSNR spectrum = 0) ∧
    (spectrum ≠ [] →
      calculateSNR spectrum +
          (spectrum.map Prod.snd).sum / ((spectrum.map Prod.snd).length : ℝ) ∈
        spectrum.map Prod.snd ∧
      ∀ y ∈ spectrum.map Prod.snd,
        y ≤ calculateSNR spectrum +
          (spectrum.map Prod.snd).sum / ((spectrum.map Prod.snd).length : ℝ)) := by
  constructor
  · rintro rfl
    rfl
  · intro h
    match spectrum with
    | s :: rest =>
      have hM := foldl_max_mem (rest.map Prod.snd) s.2
      have hle := le_foldl_max (rest.map Prod.snd) s.2
      have hlen : (((s :: rest).map Prod.snd).length : ℝ) =
          ((s :: rest).length : ℝ) := by rw [List.length_map]
      have hsnr : calculateSNR (s :: rest) +
          ((s :: rest).map Prod.snd).sum / (((s :: rest).map Prod.snd).length : ℝ) =
          (rest.map Prod.snd).foldl max s.2 := by
        rw [calculateSNR, hlen, sub_add_cancel]
      rw [hsnr]
      constructor
      · rcases hM with h1 | h1
        · rw [List.map_cons, h1]
          exact List.mem_cons_self s.2 (rest.map Prod.snd)
        · rw [List.map_cons]
          exact List.mem_cons_of_mem s.2 h1
      · intro y hy
        rw [List.map_cons] at hy
        rcases List.mem_cons.mp hy with rfl | hy
        · exact hle.1
        · exact hle.2 y hy

/-- C8 witness on the concrete two-entry spectrum `[(0, 3), (10, 1)]`. -/
theorem C8_snr_witness :
    calculateSNR [((0:ℝ), (3:ℝ)), ((10:ℝ), (1:ℝ))] +
        (([((0:ℝ), (3:ℝ)), ((10:ℝ), (1:ℝ))].map Prod.snd).sum /
          (([((0:ℝ), (3:ℝ)), ((10:ℝ), (1:ℝ))].map Prod.snd).length : ℝ)) ∈
      [((0:ℝ), (3:ℝ)), ((10:ℝ), (1:ℝ))].map Prod.snd :=
  ((C8_snr [((0:ℝ), (3:ℝ)), ((10:ℝ), (1:ℝ))]).2 (by simp)).1

lemma runLoop_switchCount_succ (p : Params) (noise : ℕ → ℝ) (d m : ℕ) :
    (runLoop p noise d (m + 1)).switchCount =
      if sign ((runLoop p noise d (m + 1)).x) ≠
            (runLoop p noise d m).lastSign ∧
          0.1 * x_0 < |(runLoop p noise d (m + 1)).x| then
        (runLoop p noise d m).switchCount + 1
      else (runLoop p noise d m).switchCount :=
  rfl

/-- C6: under any noise sequence for which the position after every
integration step stays within the hysteresis band `|x| ≤ 0.1·x_0`, the
final switch count is `0`, regardless of sign changes — detection uses
the raw per-step position and the `lastSign` carried in the loop state. -/
theorem C6_hysteresis (p : Params) (noise : ℕ → ℝ)
    (h : ∀ i, i < n_steps p →
      |(runLoop p noise (downsample p) (i + 1)).x| ≤ 0.1 * x_0) :
    (finalState p noise).switchCount = 0 := by
  rw [finalState]
  have key : ∀ m, m ≤ n_steps p →
      (runLoop p noise (downsample p) m).switchCount = 0 := by
    intro m
    induction m with
    | zero => intro _; rfl
    | succ m ih =>
      intro hm
      have hmlt : m < n_steps p := hm
      rw [runLoop_switchCount_succ, if_neg, ih (le_of_lt hmlt)]
      rintro ⟨-, habs⟩
      exact absurd (h m hmlt) (not_le.mpr habs)
  exact key _ le_rfl

lemma sqrtArg_pHyst : 2 * k_B_T pHyst * pHyst.dt / gamma = 1 := by
  norm_num [k_B_T, k_B, gamma, pHyst]

lemma n_steps_pHyst : n_steps pHyst = 2 := by
  rw [n_steps]
  norm_num [pHyst]
  decide

lemma x1_pHyst : (runLoop pHyst noiseHyst (downsample pHyst) 1).x = 0 := by
  have h1 : (runLoop pHyst noiseHyst (downsample pHyst) 1).x =
      stepX pHyst (noiseHyst 0) initState.x := rfl
  rw [h1, stepX, F_det, noiseTerm, sqrtArg_pHyst, Real.sqrt_one,
    F_coupling_eq_zero]
  norm_num [aCoef, bCoef, k_B_T, k_B, x_0, gamma, pHyst, noiseHyst, initState]

lemma x2_pHyst : (runLoop pHyst noiseHyst (downsample pHyst) 2).x = 0 := by
  have h2 : (runLoop pHyst noiseHyst (downsample pHyst) 2).x =
      stepX pHyst (noiseHyst 1)
        (runLoop pHyst noiseHyst (downsample pHyst) 1).x := rfl
  rw [h2, x1_pHyst, stepX, F_det, noiseTerm, sqrtArg_pHyst, Real.sqrt_one,
    F_coupling_eq_zero]
  norm_num [aCoef, bCoef, k_B_T, k_B, x_0, gamma, pHyst, noiseHyst]

/-- C6 witness: under `pHyst` and `noiseHyst`, both post-step positions are
exactly `0`, so the hypothesis of `C6_hysteresis` holds and the final
switch count is `0` (even though the sign history starts at `-1` and the
post-step sign is `0`). -/
theorem C6_hysteresis_witness :
    (finalState pHyst noiseHyst).switchCount = 0 := by
  apply C6_hysteresis
  intro i hi
  rw [n_steps_pHyst] at hi
  interval_cases i
  · rw [x1_pHyst]
    norm_num [x_0]
  · rw [x2_pHyst]
    norm_num [x_0]

/-- C1 (amended): `runSimulation` performs no parameter validation — there
is no error path at all.  With `total_time_s = 0` the step count is `0`,
the loop body never runs, and a (degenerate) result is still assembled and
returned: empty chart data, empty spectrum, switch count `0`. -/
theorem C1_no_validation (p : Params) (noise : ℕ → ℝ) (h : p.t_end = 0) :
    n_steps p = 0 ∧ (runSimulation p noise).chartData = [] ∧
    (runSimulation p noise).spectrum = [] ∧
    (runSimulation p noise).metrics.switches = 0 := by
  have hn : n_steps p = 0 := by
    rw [n_steps, h, zero_div, Int.floor_zero, Int.toNat_zero]
  have hf : finalState p noise = initState := by
    rw [finalState, hn]
    rfl
  refine ⟨hn, ?_, ?_, ?_⟩ <;>
    simp [runSimulation, hf, initState, computeSimplePowerSpectrum]

/-- C1 witness: the amended behavior at the concrete invalid input
`t_end = 0`. -/
theorem C1_no_validation_witness :
    n_steps pZero = 0 ∧ (runSimulation pZero noiseW).chartData = [] ∧
    (runSimulation pZero noiseW).spectrum = [] ∧
    (runSimulation pZero noiseW).metrics.switches = 0 :=
  C1_no_validation pZero noiseW (by norm_num [pZero])

/-- C1 counterexample: at `t_end = 0` the run does not surface any error —
it returns a fully assembled `SimulationResult` value (with empty chart
data and spectrum and zero switches), contradicting the claim that
`InvalidParameter` is raised before any computation and that no (partial)
result is returned. -/
theorem C1_counterexample :
    (runSimulation pZero noiseW).chartData = [] ∧
    (runSimulation pZero noiseW).spectrum = [] ∧
    (runSimulation pZero noiseW).metrics.switches = 0 ∧
    (runSimulation pZero noiseW).histData.length = 50 := by
  have hn : n_steps pZero = 0 := by
    rw [n_steps]
    norm_num [pZero]
  have hf : finalState pZero noiseW = initState := by
    rw [finalState, hn]
    rfl
  refine ⟨?_, ?_, ?_, ?_⟩ <;>
    simp [runSimulation, hf, initState, computeSimplePowerSpectrum, hist_bins]

/-- C4 (amended): over the analysis window `N = min(1024, L)` the spectrum
has exactly `min 100 ⌈N/2⌉` entries (the JS loop bound `k < N/2` is a real
comparison, so `k` runs to `⌈N/2⌉ − 1`, not `⌊N/2⌋ − 1`), and the entry at
index `k` is `(k·10, log10((real² + imag²)/N² + 1e-10))` with the direct
transform sums. -/
theorem C4_spectrum_entries (traj : List ℝ) (k : ℕ)
    (hk : k < (computeSimplePowerSpectrum
        (traj.take (min 1024 traj.length))).length) :
    (computeSimplePowerSpectrum (traj.take (min 1024 traj.length))).length =
      min 100 ((min 1024 traj.length + 1) / 2) ∧
    (computeSimplePowerSpectrum (traj.take (min 1024 traj.length))).getD k (0, 0) =
      ((k : ℝ) * 10,
        Real.logb 10
          (((∑ n ∈ Finset.range (min 1024 traj.length),
                (traj.take (min 1024 traj.length)).getD n 0 *
                  Real.cos (2 * Real.pi * k * n / (min 1024 traj.length))) ^ 2 +
            (∑ n ∈ Finset.range (min 1024 traj.length),
                (traj.take (min 1024 traj.length)).getD n 0 *
                  Real.sin (2 * Real.pi * k * n / (min 1024 traj.length))) ^ 2) /
            ((min 1024 traj.length : ℕ) : ℝ) ^ 2 +
          1e-10)) := by
  have hdata : (traj.take (min 1024 traj.length)).length =
      min 1024 traj.length := by
    rw [List.length_take]
    exact min_eq_left (min_le_right 1024 traj.length)
  constructor
  · rw [computeSimplePowerSpectrum, List.length_take, List.length_map,
      List.length_range, hdata]
  · simp only [computeSimplePowerSpectrum, hdata] at hk ⊢
    rw [List.getD_eq_getElem _ _ hk]
    simp only [List.getElem_take, List.getElem_map, List.getElem_range]
    simp only [Prod.mk.injEq, true_and]
    congr 1
    ring

/-- C4 counterexample: at window length `N = 3` (an odd case, e.g. a
trajectory of three samples) the code emits `2` spectrum entries
(`k = 0, 1`, since the JS bound is the real comparison `k < 1.5`), while
the claimed index range `0 .. N/2 − 1` in floor division has only `1`. -/
theorem C4_counterexample :
    (computeSimplePowerSpectrum ([1, 0, 0] : List ℝ)).length = 2 ∧
    min 1024 ([1, 0, 0] : List ℝ).length / 2 = 1 := by
  constructor
  · rw [computeSimplePowerSpectrum, List.length_take, List.length_map,
      List.length_range]
    rfl
  · rfl

/-- C4 witness: the entry-count part at the concrete three-sample
trajectory `[1, 0, 0]`, index `k = 0`. -/
theorem C4_spectrum_entries_witness :
    (computeSimplePowerSpectrum
        (([1, 0, 0] : List ℝ).take (min 1024 ([1, 0, 0] : List ℝ).length))).length =
      min 100 ((min 1024 ([1, 0, 0] : List ℝ).length + 1) / 2) :=
  (C4_spectrum_entries [1, 0, 0] 0 (by
    rw [computeSimplePowerSpectrum, List.length_take, List.length_map,
      List.length_range]
    norm_num)).1

lemma bin_width_pos : (0 : ℝ) < bin_width := by
  norm_num [bin_width, x_min, x_max, hist_bins]

/-- A sample is binned (index in `[0, hist_bins)`) exactly when it lies in
the half-open interval `[-2, 2)` — the right endpoint `2` itself lands in
bin index `50` and is dropped. -/
lemma binIndex_in_range_iff (v : ℝ) :
    (0 ≤ binIndex v ∧ binIndex v < (hist_bins : ℤ)) ↔ -2 ≤ v ∧ v < 2 := by
  rw [binIndex, show ((0:ℤ) ≤ ⌊(v - x_min) / bin_width⌋ ↔
      (0:ℝ) ≤ (v - x_min) / bin_width) from by
        rw [Int.le_floor]; norm_num,
    Int.floor_lt, le_div_iff bin_width_pos, div_lt_iff bin_width_pos]
  norm_num [x_min, bin_width, x_max, hist_bins]
  constructor <;> rintro ⟨h1, h2⟩ <;> constructor <;> linarith

lemma sum_histAccum (h : ℕ → ℕ) (v : ℝ) :
    ∑ i ∈ Finset.range hist_bins, histAccum h v i =
      (∑ i ∈ Finset.range hist_bins, h i) +
        (if 0 ≤ binIndex v ∧ binIndex v < (hist_bins : ℤ) then 1 else 0) := by
  by_cases hv : 0 ≤ binIndex v ∧ binIndex v < (hist_bins : ℤ)
  · rw [if_pos hv]
    have ht : ((binIndex v).toNat : ℤ) = binIndex v := Int.toNat_of_nonneg hv.1
    have hterm : ∀ i ∈ Finset.range hist_bins, histAccum h v i =
        h i + if i = (binIndex v).toNat then 1 else 0 := by
      intro i _
      have happ : histAccum h v i =
          if (i : ℤ) = binIndex v then h i + 1 else h i := by
        rw [histAccum, if_pos hv]
      rw [happ]
      by_cases hij : i = (binIndex v).toNat
      · rw [if_pos (by rw [hij, ht]), if_pos hij]
      · rw [if_neg, if_neg hij, add_zero]
        intro hc
        exact hij (by exact_mod_cast hc.trans ht.symm)
    rw [Finset.sum_congr rfl hterm, Finset.sum_add_distrib,
      Finset.sum_ite_eq' (Finset.range hist_bins) ((binIndex v).toNat)
        fun _ => 1]
    rw [if_pos]
    rw [Finset.mem_range]
    have hlt : ((binIndex v).toNat : ℤ) < (hist_bins : ℤ) := by
      rw [ht]; exact hv.2
    exact_mod_cast hlt
  · rw [if_neg hv]
    have hfix : histAccum h v = h := if_neg hv
    rw [hfix, add_zero]

lemma sum_histogramCounts (traj : List ℝ) :
    ∑ i ∈ Finset.range hist_bins, histogramCounts traj i = binnedCount traj := by
  rw [histogramCounts, binnedCount]
  suffices hgen : ∀ h0 : ℕ → ℕ,
      ∑ i ∈ Finset.range hist_bins, (traj.foldl histAccum h0) i =
        (∑ i ∈ Finset.range hist_bins, h0 i) +
          (traj.filter fun v =>
            decide (0 ≤ binIndex v ∧ binIndex v < (hist_bins : ℤ))).length by
    simpa using hgen fun _ => 0
  induction traj with
  | nil => intro h0; simp
  | cons v t ih =>
    intro h0
    rw [List.foldl_cons, ih (histAccum h0 v), sum_histAccum, List.filter_cons]
    by_cases hv : 0 ≤ binIndex v ∧ binIndex v < (hist_bins : ℤ)
    · rw [if_pos hv, if_pos (decide_eq_true hv), List.length_cons]
      omega
    · rw [if_neg hv, if_neg (fun hc => hv (of_decide_eq_true hc))]
      omega

/-- C5 (amended): the histogram densities integrate to
`samples_binned / total_samples`; the integral equals `1` exactly when
every sample lies in the half-open interval `[-2, 2)` (a sample at exactly
`2` computes bin index `50` and is dropped). -/
theorem C5_histogram_normalization (traj : List ℝ) (h : traj ≠ []) :
    (∑ i ∈ Finset.range hist_bins,
        (histogramCounts traj i : ℝ) / (traj.length : ℝ) / bin_width *
          bin_width) =
      (binnedCount traj : ℝ) / (traj.length : ℝ) ∧
    ((∑ i ∈ Finset.range hist_bins,
        (histogramCounts traj i : ℝ) / (traj.length : ℝ) / bin_width *
          bin_width) = 1 ↔
      ∀ v ∈ traj, -2 ≤ v ∧ v < 2) := by
  have hbw : bin_width ≠ 0 := ne_of_gt bin_width_pos
  have hlen : (0:ℝ) < (traj.length : ℝ) := by
    exact_mod_cast List.length_pos.mpr h
  have hsum : (∑ i ∈ Finset.range hist_bins,
      (histogramCounts traj i : ℝ) / (traj.length : ℝ) / bin_width *
        bin_width) = (binnedCount traj : ℝ) / (traj.length : ℝ) := by
    have hterm : ∀ i : ℕ,
        (histogramCounts traj i : ℝ) / (traj.length : ℝ) / bin_width *
          bin_width = (histogramCounts traj i : ℝ) / (traj.length : ℝ) := by
      intro i
      rw [div_mul_cancel₀ _ hbw]
    rw [Finset.sum_congr rfl fun i _ => hterm i, ← Finset.sum_div,
      ← Nat.cast_sum, sum_histogramCounts]
  refine ⟨hsum, ?_⟩
  rw [hsum, div_eq_one_iff_eq (ne_of_gt hlen)]
  rw [show ((binnedCount traj : ℝ) = (traj.length : ℝ)) ↔
      binnedCount traj = traj.length from Nat.cast_inj]
  rw [binnedCount, List.filter_length_eq_length]
  constructor
  · intro hall v hv
    have := hall v hv
    rw [decide_eq_true_eq] at this
    exact (binIndex_in_range_iff v).mp this
  · intro hall v hv
    rw [decide_eq_true_eq]
    exact (binIndex_in_range_iff v).mpr (hall v hv)

/-- C5 witness: the density-integral identity at the one-sample
trajectory `[0]`. -/
theorem C5_histogram_normalization_witness :
    (∑ i ∈ Finset.range hist_bins,
        (histogramCounts [(0:ℝ)] i : ℝ) / (([(0:ℝ)] : List ℝ).length : ℝ) /
          bin_width * bin_width) =
      (binnedCount [(0:ℝ)] : ℝ) / (([(0:ℝ)] : List ℝ).length : ℝ) :=
  (C5_histogram_normalization [(0:ℝ)] (by simp)).1

/-- C5 counterexample: the trajectory `[2]` has no sample outside the
closed interval `[-2, 2]`, yet its density integral is `0`, not `1` — the
sample at exactly `2` computes bin index `50` and is dropped, refuting
the closed-interval reading of the claim. -/
theorem C5_counterexample :
    (∀ v ∈ ([2] : List ℝ), -2 ≤ v ∧ v ≤ 2) ∧
    (∑ i ∈ Finset.range hist_bins,
        (histogramCounts [(2:ℝ)] i : ℝ) / (([(2:ℝ)] : List ℝ).length : ℝ) /
          bin_width * bin_width) ≠ 1 := by
  constructor
  · intro v hv
    rw [List.mem_singleton] at hv
    subst hv
    norm_num
  · have hb : binIndex 2 = 50 := by
      rw [binIndex, show ((2:ℝ) - x_min) / bin_width = ((50:ℤ) : ℝ) by
        push_cast
        norm_num [x_min, bin_width, x_max, hist_bins]]
      exact Int.floor_intCast 50
    have hc : histogramCounts [(2:ℝ)] = fun _ => 0 := by
      rw [histogramCounts, List.foldl_cons, List.foldl_nil, histAccum, hb]
      rw [if_neg]
      rw [show ((hist_bins : ℤ) = 50) from by norm_num [hist_bins]]
      decide
    rw [hc]
    norm_num

lemma stepX_congr (p q : Params) (hT : p.T = q.T) (hdt : p.dt = q.dt)
    (R x : ℝ) : stepX p R x = stepX q R x := by
  simp only [stepX, F_det, noiseTerm, aCoef, bCoef, k_B_T,
    F_coupling_eq_zero, hT, hdt]

lemma stepState_congr (p q : Params) (hT : p.T = q.T) (hdt : p.dt = q.dt)
    (d i : ℕ) (R : ℝ) (s : LoopState) :
    stepState p d i R s = stepState q d i R s := by
  simp only [stepState, stepX_congr p q hT hdt, hdt]

lemma runLoop_congr (p q : Params) (hT : p.T = q.T) (hdt : p.dt = q.dt)
    (noise : ℕ → ℝ) (d : ℕ) :
    ∀ m, runLoop p noise d m = runLoop q noise d m := by
  intro m
  induction m with
  | zero => rfl
  | succ m ih =>
    show stepState p d m (noise m) (runLoop p noise d m) =
      stepState q d m (noise m) (runLoop q noise d m)
    rw [ih, stepState_congr p q hT hdt]

/-- C10: two valid parameter sets that differ only in `B_field` and/or
`F_mag` produce, under the same injected noise, identical results —
`B_field` never enters the numerics and `F_mag` is multiplied by the
constant zero `Φ_S − Φ_baseline`. -/
theorem C10_field_insensitive (p q : Params) (noise : ℕ → ℝ)
    (hv : ValidParams p) (hT : p.T = q.T) (hdt : p.dt = q.dt)
    (hte : p.t_end = q.t_end) :
    runSimulation p noise = runSimulation q noise := by
  have hn : n_steps p = n_steps q := by rw [n_steps, n_steps, hdt, hte]
  have hd : downsample p = downsample q := by rw [downsample, downsample, hn]
  have hf : finalState p noise = finalState q noise := by
    rw [finalState, finalState, hn, hd]
    exact runLoop_congr p q hT hdt noise _ _
  have hk : k_B_T p = k_B_T q := by rw [k_B_T, k_B_T, hT]
  simp only [runSimulation, hf, hte, delta_U, hk]

/-- C10 witness: `pW` against `qW` (different `B_field` and `F_mag`,
same temperature, step and duration), zero injected noise. -/
theorem C10_field_insensitive_witness :
    runSimulation pW noiseW = runSimulation qW noiseW :=
  C10_field_insensitive pW qW noiseW ValidParams_pW rfl rfl rfl

end CRY2TRPC1
